import Mathlib

/-!
Shallow embedding of the go-sri subresource-integrity checker (sri.go).

Conventions of the embedding:
* Go byte slices are `List Nat` whose elements are intended < 256 (Go's `byte`
  type enforces this; the claims never depend on out-of-range values).
* Go maps (`map[string][]string`, `map[string]hash.Hash`) are association
  lists in insertion order, with `lookupKey`/`setKey` as lookup and update.
* A `hash.Hash` accumulator is a `HashState`: the algorithm (its `Size()` and
  the digest function computed by `Sum(nil)` over all bytes written) together
  with the bytes written so far.  `hash.Hash.Write` is documented to never
  return an error, which `HashState.write` mirrors.
* The fan-out sink built by `NewCheckerForHashes` (`io.MultiWriter`, or the
  single writer directly) holds exactly the accumulators of `c.hashes`, one
  per name in registration order, so `multiWrite` iterates that list; the
  single-accumulator direct write is the singleton instance of the same loop.
* `fmt.Errorf` failures become the structured `SRIError`; the base64 error is
  identified by the offending value rather than the library message text.
-/

namespace SRI

/-- `encoding/base64` standard alphabet, index to character. -/
def b64Char (n : Nat) : Char :=
  if n < 26 then Char.ofNat (65 + n)
  else if n < 52 then Char.ofNat (97 + (n - 26))
  else if n < 62 then Char.ofNat (48 + (n - 52))
  else if n = 62 then '+'
  else '/'

/-- `encoding/base64` standard alphabet, character to index (none = invalid). -/
def b64Index (c : Char) : Option Nat :=
  if 65 ≤ c.toNat ∧ c.toNat ≤ 90 then some (c.toNat - 65)
  else if 97 ≤ c.toNat ∧ c.toNat ≤ 122 then some (c.toNat - 97 + 26)
  else if 48 ≤ c.toNat ∧ c.toNat ≤ 57 then some (c.toNat - 48 + 52)
  else if c = '+' then some 62
  else if c = '/' then some 63
  else none

/-- `base64.StdEncoding.EncodeToString`: bytes to characters, three bytes per
four characters, padded with `=`. -/
def b64EncodeChars : List Nat → List Char
  | [] => []
  | [b0] => [b64Char (b0 / 4), b64Char (b0 % 4 * 16), '=', '=']
  | [b0, b1] =>
      [b64Char (b0 / 4), b64Char (b0 % 4 * 16 + b1 / 16), b64Char (b1 % 16 * 4), '=']
  | b0 :: b1 :: b2 :: rest =>
      b64Char (b0 / 4) :: b64Char (b0 % 4 * 16 + b1 / 16) ::
        b64Char (b1 % 16 * 4 + b2 / 64) :: b64Char (b2 % 64) :: b64EncodeChars rest

def encodeToString (bs : List Nat) : String := ⟨b64EncodeChars bs⟩

/-- One four-character quantum at a time, as `encoding/base64` decodes the
standard (padded, non-strict: trailing bits ignored) encoding.  Padding is
accepted only at the very end; leftover 1-3 characters are an error. -/
def b64DecodeChars : List Char → Option (List Nat)
  | [] => some []
  | c0 :: c1 :: c2 :: c3 :: rest =>
      match b64Index c0, b64Index c1 with
      | some i0, some i1 =>
          if c2 = '=' then
            if c3 = '=' ∧ rest = [] then some [i0 * 4 + i1 / 16] else none
          else
            match b64Index c2 with
            | some i2 =>
                if c3 = '=' then
                  if rest = [] then some [i0 * 4 + i1 / 16, i1 % 16 * 16 + i2 / 4]
                  else none
                else
                  match b64Index c3, b64DecodeChars rest with
                  | some i3, some tail =>
                      some ((i0 * 4 + i1 / 16) :: (i1 % 16 * 16 + i2 / 4) ::
                        (i2 % 4 * 64 + i3) :: tail)
                  | _, _ => none
            | none => none
      | _, _ => none
  | _ => none

/-- `base64.StdEncoding.DecodeString` (which ignores CR and LF anywhere). -/
def decodeString (s : String) : Option (List Nat) :=
  b64DecodeChars (s.data.filter fun c => !(c = '\r' || c = '\n'))

/-- `encoding/hex` lowercase digit. -/
def hexDigit (n : Nat) : Char :=
  if n < 10 then Char.ofNat (48 + n) else Char.ofNat (97 + (n - 10))

def hexEncodeChars : List Nat → List Char
  | [] => []
  | b :: rest => hexDigit (b / 16) :: hexDigit (b % 16) :: hexEncodeChars rest

/-- `hex.EncodeToString`. -/
def hexEncodeToString (bs : List Nat) : String := ⟨hexEncodeChars bs⟩

/-- `unicode.IsSpace`: Unicode white space, as used by `strings.Fields`. -/
def isSpace (c : Char) : Bool :=
  let n := c.toNat
  n = 9 || n = 10 || n = 11 || n = 12 || n = 13 || n = 32 ||
  n = 0x85 || n = 0xA0 || n = 0x1680 ||
  (0x2000 ≤ n && n ≤ 0x200A) || n = 0x2028 || n = 0x2029 ||
  n = 0x202F || n = 0x205F || n = 0x3000

def fieldsAux : List Char → List Char → List String
  | acc, [] => if acc.isEmpty then [] else [⟨acc.reverse⟩]
  | acc, c :: cs =>
      if isSpace c then
        if acc.isEmpty then fieldsAux [] cs else ⟨acc.reverse⟩ :: fieldsAux [] cs
      else fieldsAux (c :: acc) cs

/-- `strings.Fields`: split around runs of white space, no empty tokens. -/
def fields (s : String) : List String := fieldsAux [] s.data

/-- `strings.IndexRune(field, '-')` followed by the two slices
`field[:idx]` and `field[idx+1:]`; `none` when no `-` occurs. -/
def splitToken (f : String) : Option (String × String) :=
  match f.data.dropWhile (fun c => !(c = '-')) with
  | [] => none
  | _ :: rest => some (⟨f.data.takeWhile (fun c => !(c = '-'))⟩, ⟨rest⟩)

/-- A digest algorithm: its fixed output size (`hash.Hash.Size`) and the
digest of a complete byte sequence (`Sum(nil)` after writing it). -/
structure HashAlg where
  size : Nat
  digest : List Nat → List Nat

/-- A live `hash.Hash` accumulator: its algorithm and the bytes written so
far.  A fresh accumulator (`HashFunc` applied) has empty data. -/
structure HashState where
  alg : HashAlg
  data : List Nat

/-- `h.Size()`. -/
def HashState.size (h : HashState) : Nat := h.alg.size

/-- `h.Sum(nil)`. -/
def HashState.sum (h : HashState) : List Nat := h.alg.digest h.data

/-- `h.Write(b)`: appends and, per the `hash.Hash` contract, returns the
full length and no error. -/
def HashState.write (h : HashState) (b : List Nat) :
    HashState × Nat × Option String :=
  (⟨h.alg, h.data ++ b⟩, b.length, none)

/-- Go map lookup on the association-list model. -/
def lookupKey {α : Type} : List (String × α) → String → Option α
  | [], _ => none
  | (k, v) :: rest, key => if k = key then some v else lookupKey rest key

/-- Go map assignment `m[key] = v` on the association-list model: replaces in
place, or appends a new entry. -/
def setKey {α : Type} : List (String × α) → String → α → List (String × α)
  | [], key, v => [(key, v)]
  | (k, w) :: rest, key, v =>
      if k = key then (key, v) :: rest else (k, w) :: setKey rest key v

/-- The `Checker` struct: `expected` and `hashes` maps.  The fan-out writer
`w` holds exactly the accumulators of `hashes` (each is appended to `writers`
at the moment it is created), so it is represented by `hashes` itself. -/
structure Checker where
  expected : List (String × List String)
  hashes : List (String × HashState)

/-- The structured rendering of the parse-time `fmt.Errorf` failures. -/
inductive SRIError where
  | malformedToken (field : String)
  | unknownAlgorithm (name : String)
  | invalidEncoding (value : String)
  | invalidLength (value name : String) (expected actual : Nat)
  | emptyDescriptor (sri : String)
deriving DecidableEq, Repr

/-- `validateHash`: base64-decode the value, then compare the decoded length
with the accumulator size. -/
def validateHash (h : HashState) (name value : String) : Option SRIError :=
  match decodeString value with
  | none => some (SRIError.invalidEncoding value)
  | some decoded =>
      if decoded.length ≠ h.size then
        some (SRIError.invalidLength value name h.size decoded.length)
      else none

/-- `addHash`: validate against an existing accumulator and append the value,
or look the algorithm up, build a fresh accumulator, validate, and register
both maps.  The returned option is the newly created accumulator (appended to
`writers` by the caller), `none` for a repeated name. -/
def addHash (c : Checker) (name value : String)
    (hashes : String → Option HashAlg) :
    Except SRIError (Checker × Option HashState) :=
  match lookupKey c.hashes name with
  | some h =>
      match validateHash h name value with
      | some e => Except.error e
      | none =>
          Except.ok
            ({ c with
              expected :=
                setKey c.expected name ((lookupKey c.expected name).getD [] ++ [value]) },
              none)
  | none =>
      match hashes name with
      | none => Except.error (SRIError.unknownAlgorithm name)
      | some alg =>
          let h : HashState := ⟨alg, []⟩
          match validateHash h name value with
          | some e => Except.error e
          | none =>
              Except.ok
                ({ expected := setKey c.expected name [value],
                   hashes := setKey c.hashes name h }, some h)

/-- The token loop of `NewCheckerForHashes`: split each field at the first
`-`, feed it to `addHash`, collect the newly created accumulators as the
`writers` slice, abort on the first error. -/
def processFields (hashes : String → Option HashAlg) :
    Checker → List HashState → List String →
    Except SRIError (Checker × List HashState)
  | c, ws, [] => Except.ok (c, ws)
  | c, ws, field :: rest =>
      match splitToken field with
      | none => Except.error (SRIError.malformedToken field)
      | some (name, value) =>
          match addHash c name value hashes with
          | Except.error e => Except.error e
          | Except.ok (c2, some h) => processFields hashes c2 (ws ++ [h]) rest
          | Except.ok (c2, none) => processFields hashes c2 ws rest

/-- `NewCheckerForHashes`: tokenize, process every token, and require at
least one registered writer. -/
def NewCheckerForHashes (sri : String) (hashes : String → Option HashAlg) :
    Except SRIError Checker :=
  match processFields hashes ⟨[], []⟩ [] (fields sri) with
  | Except.error e => Except.error e
  | Except.ok (c, ws) =>
      if ws.length = 0 then Except.error (SRIError.emptyDescriptor sri)
      else Except.ok c

/-- The default preset table of `NewChecker`, parameterized by the digest
functions of the three SHA-2 algorithms (the sizes are `sha256.Size = 32`,
`sha512.Size384 = 48`, `sha512.Size = 64`). -/
def defaultHashes (sha256 sha384 sha512 : List Nat → List Nat) :
    String → Option HashAlg := fun name =>
  if name = "sha256" then some ⟨32, sha256⟩
  else if name = "sha384" then some ⟨48, sha384⟩
  else if name = "sha512" then some ⟨64, sha512⟩
  else none

/-- The preset table of `NewCheckerWithSHA1` (`sha1.Size = 20`). -/
def sha1Hashes (sha1 sha256 sha384 sha512 : List Nat → List Nat) :
    String → Option HashAlg := fun name =>
  if name = "sha1" then some ⟨20, sha1⟩
  else if name = "sha256" then some ⟨32, sha256⟩
  else if name = "sha384" then some ⟨48, sha384⟩
  else if name = "sha512" then some ⟨64, sha512⟩
  else none

/-- `NewChecker`. -/
def NewChecker (sha256 sha384 sha512 : List Nat → List Nat) (sri : String) :
    Except SRIError Checker :=
  NewCheckerForHashes sri (defaultHashes sha256 sha384 sha512)

/-- `NewCheckerWithSHA1`. -/
def NewCheckerWithSHA1 (sha1 sha256 sha384 sha512 : List Nat → List Nat)
    (sri : String) : Except SRIError Checker :=
  NewCheckerForHashes sri (sha1Hashes sha1 sha256 sha384 sha512)

/-- The `io.MultiWriter` loop over the fan-out accumulators: write to each in
turn, stopping early on an error or a short write. -/
def multiWrite : List (String × HashState) → List Nat →
    List (String × HashState) × Nat × Option String
  | [], b => ([], b.length, none)
  | (name, h) :: rest, b =>
      let (h2, n, err) := h.write b
      if err.isSome then ((name, h2) :: rest, n, err)
      else if n ≠ b.length then ((name, h2) :: rest, n, some "short write")
      else
        let (rest2, n2, err2) := multiWrite rest b
        ((name, h2) :: rest2, n2, err2)

/-- `Checker.Write`: forward to the fan-out sink. -/
def Checker.write (c : Checker) (b : List Nat) : Checker × Nat × Option String :=
  let (hs, n, err) := multiWrite c.hashes b
  ({ c with hashes := hs }, n, err)

/-- A sequence of writes, each keeping the updated checker. -/
def writeAll (c : Checker) : List (List Nat) → Checker
  | [] => c
  | b :: rest => writeAll (c.write b).1 rest

/-- `contains`. -/
def contains : List String → String → Bool
  | [], _ => false
  | straw :: rest, needle => if straw = needle then true else contains rest needle

/-- `describeExpected`. -/
def describeExpected (expected : List String) : String :=
  match expected with
  | [e] => e
  | _ => "one of [" ++ String.intercalate ", " expected ++ "]"

/-- `toHex`: decode each base64 value and re-encode as hex.  The Go code
discards the decode error because every stored value already passed
`validateHash`; the `getD []` branch is likewise unreachable from a parsed
checker. -/
def toHex (expected : List String) : List String :=
  expected.map fun e => hexEncodeToString ((decodeString e).getD [])

/-- The per-algorithm violation message built by `Check`. -/
def violationMsg (name value : String) (expected : List String)
    (h : List Nat) : String :=
  "violated " ++ name ++ " integrity check; was " ++ value ++ ", expected " ++
    describeExpected expected ++ " (a.k.a. was " ++ hexEncodeToString h ++
    ", expected " ++ describeExpected (toHex expected) ++ ")"

/-- `Check`: for each registered accumulator, compare the base64 encoding of
its digest with the expected values; aggregate all violations.  `none` means
success. -/
def Checker.check (c : Checker) : Option String :=
  let msgs := c.hashes.filterMap fun p =>
    let expected := (lookupKey c.expected p.1).getD []
    let h := p.2.sum
    let value := encodeToString h
    if contains expected value then none
    else some (violationMsg p.1 value expected h)
  if msgs.length ≠ 0 then
    some ("subresource integrity failed: " ++ String.intercalate "; " msgs)
  else none

/-- `Expected`: the expected hashes for a given name (`nil` for absent). -/
def Checker.Expected (c : Checker) (name : String) : List String :=
  (lookupKey c.expected name).getD []

/-- Modelled from the spec: the repository's `ExpectedHex` accessor (used by
its tests but not part of the provided source) returns the hex forms of the
expected hashes, derived from the base64 forms via `toHex`. -/
def Checker.ExpectedHex (c : Checker) (name : String) : List String :=
  toHex (c.Expected name)

/-- The singleton or empty writer contribution of one `addHash` call. -/
def optToList : Option HashState → List HashState
  | some hh => [hh]
  | none => []

/-- `Except.isOk` for the parse result. -/
def isOk {ε α : Type} : Except ε α → Bool
  | Except.ok _ => true
  | Except.error _ => false

/-- The invariant maintained token by token while parsing: the two maps are
co-indexed without duplicate keys, every accumulator is fresh (no data yet)
and produced by the supplied table, and every recorded expected value decodes
to exactly the size of its algorithm. -/
structure ParseInv (tbl : String → Option HashAlg) (c : Checker) : Prop where
  keysEq : c.expected.map Prod.fst = c.hashes.map Prod.fst
  nodup : (c.hashes.map Prod.fst).Nodup
  algOk : ∀ p ∈ c.hashes, tbl p.1 = some p.2.alg ∧ p.2.data = []
  valsOk : ∀ q ∈ c.expected, ∀ v ∈ q.2,
    ∃ st, lookupKey c.hashes q.1 = some st ∧
      ∃ d, decodeString v = some d ∧ d.length = st.alg.size

/-- A concrete one-byte digest (the byte sum) used to instantiate theorems on
closed inputs. -/
def sumDigest : List Nat → List Nat := fun d => [d.foldr (fun x y => x + y) 0 % 256]

/-- A concrete algorithm table: one algorithm named `a` of output size 1. -/
def tblA : String → Option HashAlg :=
  fun n => if n = "a" then some ⟨1, sumDigest⟩ else none

/-- The checker parsed from the descriptor `a-AA==` over `tblA`. -/
def cA : Checker := ⟨[("a", ["AA=="])], [("a", ⟨⟨1, sumDigest⟩, []⟩)]⟩

/-- The checker parsed from the descriptor `a-AA== a-AQ==` over `tblA`. -/
def cB : Checker := ⟨[("a", ["AA==", "AQ=="])], [("a", ⟨⟨1, sumDigest⟩, []⟩)]⟩

/-- A table holding a single algorithm of output size zero. -/
def tblZero : String → Option HashAlg :=
  fun n => if n = "h" then some ⟨0, fun _ => []⟩ else none

/-! ### Basic lemmas about the list-map model and the codecs -/

theorem contains_iff (l : List String) (x : String) :
    contains l x = true ↔ x ∈ l := by
  induction l with
  | nil => simp [contains]
  | cons a rest ih =>
      by_cases h : a = x
      · subst h; simp [contains]
      · simp [contains, h, ih, Ne.symm h]

theorem lookupKey_eq_none {α : Type} (m : List (String × α)) (k : String) :
    lookupKey m k = none ↔ k ∉ m.map Prod.fst := by
  induction m with
  | nil => simp [lookupKey]
  | cons p rest ih =>
      obtain ⟨k2, v⟩ := p
      by_cases h : k2 = k
      · subst h; simp [lookupKey]
      · simp [lookupKey, h, ih, Ne.symm h]

theorem lookupKey_mem {α : Type} {m : List (String × α)} {k : String} {v : α}
    (h : lookupKey m k = some v) : (k, v) ∈ m := by
  induction m with
  | nil => simp [lookupKey] at h
  | cons p rest ih =>
      obtain ⟨k2, w⟩ := p
      by_cases hk : k2 = k
      · subst hk
        simp [lookupKey] at h
        simp [h]
      · simp [lookupKey, hk] at h
        exact List.mem_cons_of_mem _ (ih h)

theorem mem_lookupKey {α : Type} {m : List (String × α)} {k : String} {v : α}
    (hm : (k, v) ∈ m) (hnd : (m.map Prod.fst).Nodup) :
    lookupKey m k = some v := by
  induction m with
  | nil => simp at hm
  | cons p rest ih =>
      obtain ⟨k2, w⟩ := p
      simp only [List.map_cons, List.nodup_cons] at hnd
      rcases List.mem_cons.mp hm with heq | hmem
      · cases heq; simp [lookupKey]
      · have hne : k2 ≠ k := by
          intro h
          subst h
          exact hnd.1 (List.mem_map.mpr ⟨(k2, v), hmem, rfl⟩)
        simp [lookupKey, hne, ih hmem hnd.2]

theorem lookupKey_setKey_self {α : Type} (m : List (String × α)) (k : String)
    (v : α) : lookupKey (setKey m k v) k = some v := by
  induction m with
  | nil => simp [setKey, lookupKey]
  | cons p rest ih =>
      obtain ⟨k2, w⟩ := p
      by_cases h : k2 = k
      · subst h; simp [setKey, lookupKey]
      · simp [setKey, lookupKey, h, ih]

theorem lookupKey_setKey_ne {α : Type} (m : List (String × α)) {k k2 : String}
    (v : α) (h : k2 ≠ k) : lookupKey (setKey m k v) k2 = lookupKey m k2 := by
  induction m with
  | nil => simp [setKey, lookupKey, Ne.symm h]
  | cons p rest ih =>
      obtain ⟨k3, w⟩ := p
      by_cases h3 : k3 = k
      · subst h3
        simp [setKey, lookupKey, Ne.symm h, h]
      · by_cases h2 : k3 = k2
        · subst h2; simp [setKey, lookupKey, h3]
        · simp [setKey, lookupKey, h3, h2, ih]

theorem setKey_map_fst_some {α : Type} {m : List (String × α)} {k : String}
    {w : α} (h : lookupKey m k = some w) (v : α) :
    (setKey m k v).map Prod.fst = m.map Prod.fst := by
  induction m with
  | nil => simp [lookupKey] at h
  | cons p rest ih =>
      obtain ⟨k2, u⟩ := p
      by_cases hk : k2 = k
      · subst hk; simp [setKey]
      · simp only [lookupKey, if_neg hk] at h
        simp [setKey, hk, ih h]

theorem setKey_map_fst_none {α : Type} {m : List (String × α)} {k : String}
    (h : lookupKey m k = none) (v : α) :
    (setKey m k v).map Prod.fst = m.map Prod.fst ++ [k] := by
  induction m with
  | nil => simp [setKey]
  | cons p rest ih =>
      obtain ⟨k2, u⟩ := p
      by_cases hk : k2 = k
      · subst hk; simp [lookupKey] at h
      · simp only [lookupKey, if_neg hk] at h
        simp [setKey, hk, ih h]

/-! ### Write fan-out -/

theorem multiWrite_eq (hs : List (String × HashState)) (b : List Nat) :
    multiWrite hs b =
      (hs.map fun p => (p.1, ⟨p.2.alg, p.2.data ++ b⟩), b.length, none) := by
  induction hs with
  | nil => simp [multiWrite]
  | cons p rest ih =>
      obtain ⟨name, h⟩ := p
      simp [multiWrite, HashState.write, ih]

theorem writeAll_spec (c : Checker) (bs : List (List Nat)) :
    (writeAll c bs).expected = c.expected ∧
    (writeAll c bs).hashes =
      c.hashes.map fun p => (p.1, ⟨p.2.alg, p.2.data ++ bs.flatten⟩) := by
  induction bs generalizing c with
  | nil =>
      refine ⟨rfl, ?_⟩
      conv_lhs => rw [show (writeAll c []).hashes = c.hashes from rfl]
      rw [List.map_congr_left, List.map_id]
      intro p _
      simp
  | cons b rest ih =>
      have hw : (c.write b).1 =
          { c with hashes := c.hashes.map fun p => (p.1, ⟨p.2.alg, p.2.data ++ b⟩) } := by
        simp [Checker.write, multiWrite_eq]
      have step : writeAll c (b :: rest) = writeAll (c.write b).1 rest := rfl
      rw [step, hw]
      obtain ⟨he, hh⟩ := ih { c with hashes := c.hashes.map fun p => (p.1, ⟨p.2.alg, p.2.data ++ b⟩) }
      refine ⟨he, ?_⟩
      rw [hh]
      simp [List.map_map, Function.comp, List.append_assoc]

theorem mem_setKey {α : Type} {m : List (String × α)} {k : String} {v : α}
    {q : String × α} (h : q ∈ setKey m k v) : q = (k, v) ∨ q ∈ m := by
  induction m with
  | nil => simp [setKey] at h; simp [h]
  | cons p rest ih =>
      obtain ⟨k2, w⟩ := p
      by_cases hk : k2 = k
      · subst hk
        simp only [setKey, if_pos rfl] at h
        rcases List.mem_cons.mp h with heq | hmem
        · exact Or.inl heq
        · exact Or.inr (List.mem_cons_of_mem _ hmem)
      · simp only [setKey, if_neg hk] at h
        rcases List.mem_cons.mp h with heq | hmem
        · exact Or.inr (heq ▸ List.mem_cons_self _ _)
        · rcases ih hmem with h1 | h2
          · exact Or.inl h1
          · exact Or.inr (List.mem_cons_of_mem _ h2)

theorem lookupKey_ne_none_of_mem {α : Type} {m : List (String × α)}
    {q : String × α} (h : q ∈ m) : lookupKey m q.1 ≠ none := by
  induction m with
  | nil => simp at h
  | cons p rest ih =>
      obtain ⟨k2, w⟩ := p
      by_cases hk : k2 = q.1
      · simp [lookupKey, hk]
      · rcases List.mem_cons.mp h with heq | hmem
        · subst heq; simp at hk
        · simp [lookupKey, hk, ih hmem]

theorem check_eq_none_iff (c : Checker) :
    c.check = none ↔ ∀ p ∈ c.hashes,
      encodeToString p.2.sum ∈ (lookupKey c.expected p.1).getD [] := by
  have hmain : c.check = none ↔
      (c.hashes.filterMap fun p =>
        if contains ((lookupKey c.expected p.1).getD [])
            (encodeToString p.2.sum) = true then none
        else some (violationMsg p.1 (encodeToString p.2.sum)
          ((lookupKey c.expected p.1).getD []) p.2.sum)) = [] := by
    by_cases hl : (c.hashes.filterMap fun p =>
        if contains ((lookupKey c.expected p.1).getD [])
            (encodeToString p.2.sum) = true then none
        else some (violationMsg p.1 (encodeToString p.2.sum)
          ((lookupKey c.expected p.1).getD []) p.2.sum)) = []
    · simp [Checker.check, hl]
    · simp [Checker.check, hl, List.length_eq_zero]
  rw [hmain, List.filterMap_eq_nil_iff]
  constructor
  · intro h p hp
    have hthis := h p hp
    by_cases hc : contains ((lookupKey c.expected p.1).getD [])
        (encodeToString p.2.sum) = true
    · exact (contains_iff _ _).mp hc
    · simp [hc] at hthis
  · intro h p hp
    simp [(contains_iff _ _).mpr (h p hp)]

/-! ### addHash characterization -/

theorem validateHash_none_iff (h : HashState) (name value : String) :
    validateHash h name value = none ↔
      ∃ d, decodeString value = some d ∧ d.length = h.alg.size := by
  unfold validateHash
  cases hd : decodeString value with
  | none => simp
  | some d =>
      by_cases hlen : d.length = h.alg.size
      · simp [HashState.size, hlen]
      · simp [HashState.size, hlen]

theorem addHash_ok {c : Checker} {name value : String}
    {tbl : String → Option HashAlg} {c2 : Checker} {w : Option HashState}
    (h : addHash c name value tbl = Except.ok (c2, w)) :
    (∃ st, lookupKey c.hashes name = some st ∧ w = none ∧
       validateHash st name value = none ∧
       c2.hashes = c.hashes ∧
       c2.expected =
         setKey c.expected name ((lookupKey c.expected name).getD [] ++ [value])) ∨
    (∃ alg, lookupKey c.hashes name = none ∧ tbl name = some alg ∧
       w = some ⟨alg, []⟩ ∧
       validateHash ⟨alg, []⟩ name value = none ∧
       c2.hashes = setKey c.hashes name ⟨alg, []⟩ ∧
       c2.expected = setKey c.expected name [value]) := by
  unfold addHash at h
  cases hl : lookupKey c.hashes name with
  | some st =>
      simp only [hl] at h
      cases hv : validateHash st name value with
      | some e => simp only [hv] at h; exact Except.noConfusion h
      | none =>
          simp only [hv, Except.ok.injEq, Prod.mk.injEq] at h
          obtain ⟨hc, hw⟩ := h
          exact Or.inl ⟨st, rfl, hw.symm, hv, by rw [← hc], by rw [← hc]⟩
  | none =>
      simp only [hl] at h
      cases ht : tbl name with
      | none => simp only [ht] at h; exact Except.noConfusion h
      | some alg =>
          simp only [ht] at h
          cases hv : validateHash ⟨alg, []⟩ name value with
          | some e => simp only [hv] at h; exact Except.noConfusion h
          | none =>
              simp only [hv, Except.ok.injEq, Prod.mk.injEq] at h
              obtain ⟨hc, hw⟩ := h
              exact Or.inr ⟨alg, rfl, rfl, hw.symm, hv, by rw [← hc], by rw [← hc]⟩

theorem addHash_inv {c : Checker} {name value : String}
    {tbl : String → Option HashAlg} {c2 : Checker} {w : Option HashState}
    (hinv : ParseInv tbl c) (h : addHash c name value tbl = Except.ok (c2, w)) :
    ParseInv tbl c2 := by
  rcases addHash_ok h with ⟨st, hl, hw, hv, hh, he⟩ | ⟨alg, hl, ht, hw, hv, hh, he⟩
  · have hmem : name ∈ c.expected.map Prod.fst := by
      rw [hinv.keysEq]
      exact List.mem_map.mpr ⟨(name, st), lookupKey_mem hl, rfl⟩
    cases hold : lookupKey c.expected name with
    | none => exact absurd hmem ((lookupKey_eq_none _ _).mp hold)
    | some old =>
        refine ⟨?_, ?_, ?_, ?_⟩
        · rw [he, hh, setKey_map_fst_some hold, hinv.keysEq]
        · rw [hh]; exact hinv.nodup
        · rw [hh]; exact hinv.algOk
        · rw [he, hh]
          intro q hq v hvv
          rcases mem_setKey hq with heq | hqm
          · subst heq
            simp only [hold, Option.getD_some] at hvv
            rcases List.mem_append.mp hvv with hv1 | hv2
            · exact hinv.valsOk (name, old) (lookupKey_mem hold) v hv1
            · have hveq : v = value := by simpa using hv2
              rw [hveq]
              obtain ⟨d, hd, hlen⟩ := (validateHash_none_iff st name value).mp hv
              exact ⟨st, hl, d, hd, hlen⟩
          · exact hinv.valsOk q hqm v hvv
  · have hnotmem : name ∉ c.hashes.map Prod.fst := (lookupKey_eq_none _ _).mp hl
    have hexpnone : lookupKey c.expected name = none := by
      refine (lookupKey_eq_none _ _).mpr ?_
      rw [hinv.keysEq]; exact hnotmem
    refine ⟨?_, ?_, ?_, ?_⟩
    · rw [he, hh, setKey_map_fst_none hexpnone, setKey_map_fst_none hl, hinv.keysEq]
    · rw [hh, setKey_map_fst_none hl]
      simp only [List.nodup_append, List.nodup_singleton, true_and]
      exact ⟨hinv.nodup, by simpa [List.disjoint_singleton] using hnotmem⟩
    · rw [hh]
      intro p hp
      rcases mem_setKey hp with heq | hpm
      · subst heq; exact ⟨ht, rfl⟩
      · exact hinv.algOk p hpm
    · rw [he, hh]
      intro q hq v hvv
      rcases mem_setKey hq with heq | hqm
      · subst heq
        have hveq : v = value := by simpa using hvv
        rw [hveq]
        obtain ⟨d, hd, hlen⟩ := (validateHash_none_iff ⟨alg, []⟩ name value).mp hv
        exact ⟨⟨alg, []⟩, lookupKey_setKey_self _ _ _, d, hd, hlen⟩
      · have hne : q.1 ≠ name := by
          intro h0
          exact lookupKey_ne_none_of_mem hqm (h0 ▸ hexpnone)
        obtain ⟨st, hst, d, hd, hlen⟩ := hinv.valsOk q hqm v hvv
        exact ⟨st, by rw [lookupKey_setKey_ne _ _ hne]; exact hst, d, hd, hlen⟩

theorem addHash_lookup_mono {c : Checker} {name value : String}
    {tbl : String → Option HashAlg} {c2 : Checker} {w : Option HashState}
    (h : addHash c name value tbl = Except.ok (c2, w)) {n : String}
    {st : HashState} (hn : lookupKey c.hashes n = some st) :
    lookupKey c2.hashes n = some st := by
  rcases addHash_ok h with ⟨st2, hl, hw, hv, hh, he⟩ | ⟨alg, hl, ht, hw, hv, hh, he⟩
  · rw [hh]; exact hn
  · rw [hh]
    have hne : n ≠ name := by
      rintro rfl
      rw [hl] at hn
      cases hn
    rw [lookupKey_setKey_ne _ _ hne]
    exact hn

theorem addHash_validated {c : Checker} {name value : String}
    {tbl : String → Option HashAlg} {c2 : Checker} {w : Option HashState}
    (h : addHash c name value tbl = Except.ok (c2, w)) :
    ∃ st, lookupKey c2.hashes name = some st ∧
      ∃ d, decodeString value = some d ∧ d.length = st.alg.size := by
  rcases addHash_ok h with ⟨st, hl, hw, hv, hh, he⟩ | ⟨alg, hl, ht, hw, hv, hh, he⟩
  · exact ⟨st, by rw [hh]; exact hl, (validateHash_none_iff _ _ _).mp hv⟩
  · exact ⟨⟨alg, []⟩, by rw [hh]; exact lookupKey_setKey_self _ _ _,
      (validateHash_none_iff _ _ _).mp hv⟩

theorem addHash_expectedFor {c : Checker} {name value : String}
    {tbl : String → Option HashAlg} {c2 : Checker} {w : Option HashState}
    (hinv : ParseInv tbl c) (h : addHash c name value tbl = Except.ok (c2, w))
    (n : String) :
    (lookupKey c2.expected n).getD [] =
      (lookupKey c.expected n).getD [] ++ (if name = n then [value] else []) := by
  rcases addHash_ok h with ⟨st, hl, hw, hv, hh, he⟩ | ⟨alg, hl, ht, hw, hv, hh, he⟩
  · rw [he]
    by_cases hn : name = n
    · subst hn
      rw [lookupKey_setKey_self]
      simp
    · rw [lookupKey_setKey_ne _ _ (Ne.symm hn)]
      simp [hn]
  · rw [he]
    by_cases hn : name = n
    · subst hn
      have hexpnone : lookupKey c.expected name = none := by
        refine (lookupKey_eq_none _ _).mpr ?_
        rw [hinv.keysEq]
        exact (lookupKey_eq_none _ _).mp hl
      rw [lookupKey_setKey_self]
      simp [hexpnone]
    · rw [lookupKey_setKey_ne _ _ (Ne.symm hn)]
      simp [hn]

theorem addHash_keys {c : Checker} {name value : String}
    {tbl : String → Option HashAlg} {c2 : Checker} {w : Option HashState}
    (h : addHash c name value tbl = Except.ok (c2, w)) :
    c2.hashes.map Prod.fst =
      c.hashes.map Prod.fst ++
        (match w with | some _ => [name] | none => []) := by
  rcases addHash_ok h with ⟨st, hl, hw, hv, hh, he⟩ | ⟨alg, hl, ht, hw, hv, hh, he⟩
  · subst hw; rw [hh]; simp
  · subst hw; rw [hh]; exact setKey_map_fst_none hl _

theorem addHash_referenced {c : Checker} {name value : String}
    {tbl : String → Option HashAlg} {c2 : Checker} {w : Option HashState}
    (h : addHash c name value tbl = Except.ok (c2, w)) (n : String)
    (hn : lookupKey c2.expected n ≠ none) :
    lookupKey c.expected n ≠ none ∨ n = name := by
  by_cases heq : n = name
  · exact Or.inr heq
  · left
    rcases addHash_ok h with ⟨st, hl, hw, hv, hh, he⟩ | ⟨alg, hl, ht, hw, hv, hh, he⟩
    · rw [he, lookupKey_setKey_ne _ _ heq] at hn; exact hn
    · rw [he, lookupKey_setKey_ne _ _ heq] at hn; exact hn

/-! ### processFields invariants -/

theorem processFields_ok_elim {tbl : String → Option HashAlg} {field : String}
    {fs : List String} {c : Checker} {ws : List HashState} {c2 : Checker}
    {ws2 : List HashState}
    (h : processFields tbl c ws (field :: fs) = Except.ok (c2, ws2)) :
    ∃ name value c3 w, splitToken field = some (name, value) ∧
      addHash c name value tbl = Except.ok (c3, w) ∧
      processFields tbl c3 (ws ++ optToList w) fs = Except.ok (c2, ws2) := by
  unfold processFields at h
  cases hs : splitToken field with
  | none => simp only [hs] at h; exact Except.noConfusion h
  | some p =>
      obtain ⟨name, value⟩ := p
      simp only [hs] at h
      cases ha : addHash c name value tbl with
      | error e => simp only [ha] at h; exact Except.noConfusion h
      | ok q =>
          obtain ⟨c3, w⟩ := q
          simp only [ha] at h
          cases w with
          | some hh => exact ⟨name, value, c3, some hh, rfl, ha, h⟩
          | none =>
              refine ⟨name, value, c3, none, rfl, ha, ?_⟩
              simpa [optToList] using h

theorem processFields_inv {tbl : String → Option HashAlg} :
    ∀ {fs : List String} {c : Checker} {ws : List HashState} {c2 : Checker}
      {ws2 : List HashState},
      processFields tbl c ws fs = Except.ok (c2, ws2) → ParseInv tbl c →
      ParseInv tbl c2
  | [], c, ws, c2, ws2, h, hinv => by
      simp only [processFields, Except.ok.injEq, Prod.mk.injEq] at h
      exact h.1 ▸ hinv
  | field :: fs, c, ws, c2, ws2, h, hinv => by
      obtain ⟨name, value, c3, w, hs, ha, hrest⟩ := processFields_ok_elim h
      exact processFields_inv hrest (addHash_inv hinv ha)

theorem processFields_lookup_mono {tbl : String → Option HashAlg} :
    ∀ {fs : List String} {c : Checker} {ws : List HashState} {c2 : Checker}
      {ws2 : List HashState},
      processFields tbl c ws fs = Except.ok (c2, ws2) →
      ∀ {n : String} {st : HashState}, lookupKey c.hashes n = some st →
        lookupKey c2.hashes n = some st
  | [], c, ws, c2, ws2, h, n, st, hn => by
      simp only [processFields, Except.ok.injEq, Prod.mk.injEq] at h
      exact h.1 ▸ hn
  | field :: fs, c, ws, c2, ws2, h, n, st, hn => by
      obtain ⟨name, value, c3, w, hs, ha, hrest⟩ := processFields_ok_elim h
      exact processFields_lookup_mono hrest (addHash_lookup_mono ha hn)

theorem processFields_validated {tbl : String → Option HashAlg} :
    ∀ {fs : List String} {c : Checker} {ws : List HashState} {c2 : Checker}
      {ws2 : List HashState},
      processFields tbl c ws fs = Except.ok (c2, ws2) →
      ∀ field ∈ fs, ∀ name value, splitToken field = some (name, value) →
        ∃ st, lookupKey c2.hashes name = some st ∧
          ∃ d, decodeString value = some d ∧ d.length = st.alg.size
  | [], c, ws, c2, ws2, h, field, hf, name, value, hsv => by simp at hf
  | field0 :: fs, c, ws, c2, ws2, h, field, hf, name, value, hsv => by
      obtain ⟨name0, value0, c3, w, hs, ha, hrest⟩ := processFields_ok_elim h
      rcases List.mem_cons.mp hf with heq | hmem
      · subst heq
        rw [hs] at hsv
        obtain ⟨hn, hv⟩ : name0 = name ∧ value0 = value := by
          simpa using hsv
        subst hn; subst hv
        obtain ⟨st, hst, d, hd, hlen⟩ := addHash_validated ha
        exact ⟨st, processFields_lookup_mono hrest hst, d, hd, hlen⟩
      · exact processFields_validated hrest field hmem name value hsv

theorem processFields_expectedFor {tbl : String → Option HashAlg} :
    ∀ {fs : List String} {c : Checker} {ws : List HashState} {c2 : Checker}
      {ws2 : List HashState},
      processFields tbl c ws fs = Except.ok (c2, ws2) → ParseInv tbl c →
      ∀ n, (lookupKey c2.expected n).getD [] =
        (lookupKey c.expected n).getD [] ++
          fs.filterMap (fun field =>
            match splitToken field with
            | some (nm, v) => if nm = n then some v else none
            | none => none)
  | [], c, ws, c2, ws2, h, hinv, n => by
      simp only [processFields, Except.ok.injEq, Prod.mk.injEq] at h
      simp [h.1]
  | field0 :: fs, c, ws, c2, ws2, h, hinv, n => by
      obtain ⟨name, value, c3, w, hs, ha, hrest⟩ := processFields_ok_elim h
      rw [processFields_expectedFor hrest (addHash_inv hinv ha) n,
          addHash_expectedFor hinv ha n, List.filterMap_cons]
      by_cases hn : name = n
      · simp [hs, hn, List.append_assoc]
      · simp [hs, hn]

theorem processFields_length {tbl : String → Option HashAlg} :
    ∀ {fs : List String} {c : Checker} {ws : List HashState} {c2 : Checker}
      {ws2 : List HashState},
      processFields tbl c ws fs = Except.ok (c2, ws2) →
      c2.hashes.length + ws.length = c.hashes.length + ws2.length
  | [], c, ws, c2, ws2, h => by
      simp only [processFields, Except.ok.injEq, Prod.mk.injEq] at h
      rw [h.1, h.2]
  | field :: fs, c, ws, c2, ws2, h => by
      obtain ⟨name, value, c3, w, hs, ha, hrest⟩ := processFields_ok_elim h
      have hkeys := congrArg List.length (addHash_keys ha)
      have hih := processFields_length hrest
      cases w <;> simp [optToList] at hkeys hih <;> omega

theorem processFields_referenced {tbl : String → Option HashAlg} :
    ∀ {fs : List String} {c : Checker} {ws : List HashState} {c2 : Checker}
      {ws2 : List HashState},
      processFields tbl c ws fs = Except.ok (c2, ws2) →
      ∀ n, lookupKey c2.expected n ≠ none →
        lookupKey c.expected n ≠ none ∨
          ∃ field ∈ fs, ∃ v, splitToken field = some (n, v)
  | [], c, ws, c2, ws2, h, n, hn => by
      simp only [processFields, Except.ok.injEq, Prod.mk.injEq] at h
      exact Or.inl (h.1 ▸ hn)
  | field0 :: fs, c, ws, c2, ws2, h, n, hn => by
      obtain ⟨name, value, c3, w, hs, ha, hrest⟩ := processFields_ok_elim h
      rcases processFields_referenced hrest n hn with h3 | ⟨field, hf, v, hv⟩
      · rcases addHash_referenced ha n h3 with h0 | heq
        · exact Or.inl h0
        · exact Or.inr ⟨field0, List.mem_cons_self _ _, value, heq ▸ hs⟩
      · exact Or.inr ⟨field, List.mem_cons_of_mem _ hf, v, hv⟩

theorem parse_ok_elim {sri : String} {tbl : String → Option HashAlg}
    {c : Checker} (h : NewCheckerForHashes sri tbl = Except.ok c) :
    ∃ ws, processFields tbl ⟨[], []⟩ [] (fields sri) = Except.ok (c, ws) ∧
      ws ≠ [] := by
  unfold NewCheckerForHashes at h
  cases hp : processFields tbl ⟨[], []⟩ [] (fields sri) with
  | error e => simp only [hp] at h; exact Except.noConfusion h
  | ok p =>
      obtain ⟨c3, ws⟩ := p
      simp only [hp] at h
      by_cases hws : ws.length = 0
      · simp [hws] at h
      · rw [if_neg hws] at h
        simp only [Except.ok.injEq] at h
        refine ⟨ws, by rw [h], fun hnil => hws (by simp [hnil])⟩

theorem parse_inv {sri : String} {tbl : String → Option HashAlg} {c : Checker}
    (h : NewCheckerForHashes sri tbl = Except.ok c) : ParseInv tbl c := by
  obtain ⟨ws, hp, _⟩ := parse_ok_elim h
  exact processFields_inv hp ⟨rfl, List.nodup_nil, by simp, by simp⟩

/-! ### Shared parse-level helpers for the claim theorems -/

theorem processFields_cons_ok {tbl : String → Option HashAlg} {field : String}
    {fs : List String} {c : Checker} {ws : List HashState}
    {name value : String} {c3 : Checker} {w : Option HashState}
    (hs : splitToken field = some (name, value))
    (ha : addHash c name value tbl = Except.ok (c3, w)) :
    processFields tbl c ws (field :: fs) =
      processFields tbl c3 (ws ++ optToList w) fs := by
  cases w with
  | some hh => simp only [processFields, hs, ha, optToList]
  | none => simp only [processFields, hs, ha, optToList, List.append_nil]

theorem processFields_append_ok {tbl : String → Option HashAlg} :
    ∀ {pre : List String} {c : Checker} {ws : List HashState} {c1 : Checker}
      {ws1 : List HashState} (fs : List String),
      processFields tbl c ws pre = Except.ok (c1, ws1) →
      processFields tbl c ws (pre ++ fs) = processFields tbl c1 ws1 fs
  | [], c, ws, c1, ws1, fs, h => by
      simp only [processFields, Except.ok.injEq, Prod.mk.injEq] at h
      rw [List.nil_append, h.1, h.2]
  | field :: pre, c, ws, c1, ws1, fs, h => by
      obtain ⟨name, value, c3, w, hs, ha, hrest⟩ := processFields_ok_elim h
      rw [List.cons_append, processFields_cons_ok hs ha]
      exact processFields_append_ok fs hrest

/-- If every token before `field` processes successfully and the token run
starting at `field` then fails, the whole parse fails with that error (the
writer-count check is never reached). -/
theorem parse_error_at_token {sri : String} {tbl : String → Option HashAlg}
    {pre : List String} {field : String} {rest : List String} {c1 : Checker}
    {ws1 : List HashState} {e : SRIError}
    (hf : fields sri = pre ++ field :: rest)
    (hpre : processFields tbl ⟨[], []⟩ [] pre = Except.ok (c1, ws1))
    (h : processFields tbl c1 ws1 (field :: rest) = Except.error e) :
    NewCheckerForHashes sri tbl = Except.error e := by
  unfold NewCheckerForHashes
  rw [hf, processFields_append_ok _ hpre, h]

theorem fieldsAux_all_space :
    ∀ cs : List Char, (∀ ch ∈ cs, isSpace ch = true) → fieldsAux [] cs = []
  | [], _ => rfl
  | ch :: cs, h => by
      have h1 : isSpace ch = true := h ch (List.mem_cons_self _ _)
      simp only [fieldsAux, h1, if_true, List.isEmpty_nil]
      exact fieldsAux_all_space cs (fun x hx => h x (List.mem_cons_of_mem _ hx))

/-! ### The claims -/

/-- C1: for a verifier built from a well-formed descriptor and any sequence
of writes, `check` succeeds iff for every algorithm registered in the active
set, the base64 encoding of that algorithm's digest of the concatenation of
all written bytes is a member of that algorithm's expected-value sequence:
any one value suffices within an algorithm, every algorithm must match. -/
theorem check_iff_all_algorithms_match (sri : String)
    (tbl : String → Option HashAlg) (c : Checker)
    (hp : NewCheckerForHashes sri tbl = Except.ok c) (bs : List (List Nat)) :
    (writeAll c bs).check = none ↔
      ∀ p ∈ c.hashes,
        encodeToString (p.2.alg.digest bs.flatten) ∈ c.Expected p.1 := by
  have hinv := parse_inv hp
  obtain ⟨he, hh⟩ := writeAll_spec c bs
  rw [check_eq_none_iff, he, hh]
  constructor
  · intro h p hp2
    have h2 := h (p.1, ⟨p.2.alg, p.2.data ++ bs.flatten⟩)
      (List.mem_map.mpr ⟨p, hp2, rfl⟩)
    have hdata : p.2.data = [] := (hinv.algOk p hp2).2
    simpa [Checker.Expected, HashState.sum, hdata] using h2
  · intro h p hp2
    obtain ⟨q, hq, rfl⟩ := List.mem_map.mp hp2
    have hdata : q.2.data = [] := (hinv.algOk q hq).2
    simpa [Checker.Expected, HashState.sum, hdata] using h q hq

/-- Witness for C1 at the descriptor `a-AA==` over the singleton table. -/
theorem check_iff_all_algorithms_match_witness :
    NewCheckerForHashes "a-AA==" tblA = Except.ok cA ∧
    ((writeAll cA [[1, 2]]).check = none ↔
      ∀ p ∈ cA.hashes,
        encodeToString (p.2.alg.digest ([[1, 2]] : List (List Nat)).flatten) ∈
          cA.Expected p.1) :=
  ⟨rfl, check_iff_all_algorithms_match "a-AA==" tblA cA rfl [[1, 2]]⟩

/-- C2: for any token at any position of the descriptor (the tokens before
it having parsed successfully, otherwise the earlier token's error already
decided the outcome) the checks run in a fixed order: missing separator,
then the algorithm lookup (the table for a fresh name, the existing
accumulator for a repeated one), then base64 decoding, then decoded length
— so a token with simultaneous defects deterministically fails with the
error of the earliest failing check. -/
theorem parse_error_priority_order (sri : String)
    (tbl : String → Option HashAlg) (pre : List String) (field : String)
    (rest : List String) (c1 : Checker) (ws1 : List HashState)
    (hf : fields sri = pre ++ field :: rest)
    (hpre : processFields tbl ⟨[], []⟩ [] pre = Except.ok (c1, ws1)) :
    (splitToken field = none →
      NewCheckerForHashes sri tbl =
        Except.error (SRIError.malformedToken field)) ∧
    (∀ name value, splitToken field = some (name, value) →
      (lookupKey c1.hashes name = none →
        (tbl name = none →
          NewCheckerForHashes sri tbl =
            Except.error (SRIError.unknownAlgorithm name)) ∧
        (∀ alg, tbl name = some alg →
          (decodeString value = none →
            NewCheckerForHashes sri tbl =
              Except.error (SRIError.invalidEncoding value)) ∧
          (∀ d, decodeString value = some d → d.length ≠ alg.size →
            NewCheckerForHashes sri tbl =
              Except.error
                (SRIError.invalidLength value name alg.size d.length)))) ∧
      (∀ st, lookupKey c1.hashes name = some st →
        (decodeString value = none →
          NewCheckerForHashes sri tbl =
            Except.error (SRIError.invalidEncoding value)) ∧
        (∀ d, decodeString value = some d → d.length ≠ st.alg.size →
          NewCheckerForHashes sri tbl =
            Except.error
              (SRIError.invalidLength value name st.alg.size d.length)))) := by
  refine ⟨?_, ?_⟩
  · intro hsplit
    exact parse_error_at_token hf hpre (by simp [processFields, hsplit])
  · intro name value hsplit
    refine ⟨?_, ?_⟩
    · intro hlook
      refine ⟨?_, ?_⟩
      · intro htbl
        refine parse_error_at_token hf hpre ?_
        simp [processFields, hsplit, addHash, hlook, htbl]
      · intro alg htbl
        refine ⟨?_, ?_⟩
        · intro hdec
          refine parse_error_at_token hf hpre ?_
          simp [processFields, hsplit, addHash, hlook, htbl, validateHash,
            hdec]
        · intro d hdec hlen
          refine parse_error_at_token hf hpre ?_
          simp [processFields, hsplit, addHash, hlook, htbl, validateHash,
            hdec, HashState.size, hlen]
    · intro st hlook
      refine ⟨?_, ?_⟩
      · intro hdec
        refine parse_error_at_token hf hpre ?_
        simp [processFields, hsplit, addHash, hlook, validateHash, hdec]
      · intro d hdec hlen
        refine parse_error_at_token hf hpre ?_
        simp [processFields, hsplit, addHash, hlook, validateHash, hdec,
          HashState.size, hlen]

/-- Witness for C2: a second occurrence of an already-registered algorithm
in second position whose value is not base64 fails with the decoding error
(the decode check precedes the length check on the repeated-name path). -/
theorem parse_error_priority_order_witness :
    NewCheckerForHashes "a-AA== a-!!!!" tblA =
      Except.error (SRIError.invalidEncoding "!!!!") :=
  (((parse_error_priority_order "a-AA== a-!!!!" tblA ["a-AA=="] "a-!!!!" []
      cA [⟨⟨1, sumDigest⟩, []⟩] rfl rfl).2 "a" "!!!!" rfl).2
      ⟨⟨1, sumDigest⟩, []⟩ rfl).1 rfl

/-- C3: an occurrence of an algorithm whose value fails decoding or the
length check against that algorithm's output size aborts the whole parse —
in particular a malformed second or later occurrence of an algorithm that was
already accepted, since the accumulator's algorithm is the one the table gave
the first occurrence. -/
theorem later_occurrence_validation_aborts_parse (sri : String)
    (tbl : String → Option HashAlg) (field name value : String)
    (alg : HashAlg) (hfield : field ∈ fields sri)
    (hsplit : splitToken field = some (name, value))
    (halg : tbl name = some alg)
    (hbad : decodeString value = none ∨
      ∃ d, decodeString value = some d ∧ d.length ≠ alg.size) :
    ∃ e, NewCheckerForHashes sri tbl = Except.error e := by
  cases hres : NewCheckerForHashes sri tbl with
  | error e => exact ⟨e, rfl⟩
  | ok c =>
      exfalso
      obtain ⟨ws, hpf, _⟩ := parse_ok_elim hres
      obtain ⟨st, hst, d, hd, hlen⟩ :=
        processFields_validated hpf field hfield name value hsplit
      have hinv := processFields_inv hpf ⟨rfl, List.nodup_nil, by simp, by simp⟩
      have halg2 := (hinv.algOk (name, st) (lookupKey_mem hst)).1
      rw [halg] at halg2
      obtain rfl : alg = st.alg := by injection halg2
      rcases hbad with h0 | ⟨d2, hd2, hlen2⟩
      · rw [h0] at hd; cases hd
      · rw [hd2] at hd
        obtain rfl : d2 = d := by injection hd
        exact hlen2 hlen

/-- Witness for C3: a second `a` token whose value is not base64. -/
theorem later_occurrence_validation_aborts_parse_witness :
    ∃ e, NewCheckerForHashes "a-AA== a-!!" tblA = Except.error e :=
  later_occurrence_validation_aborts_parse "a-AA== a-!!" tblA "a-!!" "a" "!!"
    ⟨1, sumDigest⟩ (by decide) rfl rfl (Or.inl rfl)

/-- C4: after a successful parse the keys of the expected map and of the
hashes map coincide (in registration order), with no duplicate key (one
accumulator per name however many tokens referenced it), and writing
preserves both: the expected map verbatim and the hashes map's keys.
`check` reads the maps without modifying them — in this embedding it returns
only the error value. -/
theorem expected_hashes_coindexed (sri : String)
    (tbl : String → Option HashAlg) (c : Checker)
    (hp : NewCheckerForHashes sri tbl = Except.ok c) (bs : List (List Nat)) :
    c.expected.map Prod.fst = c.hashes.map Prod.fst ∧
    (c.hashes.map Prod.fst).Nodup ∧
    (writeAll c bs).expected = c.expected ∧
    (writeAll c bs).hashes.map Prod.fst = c.hashes.map Prod.fst := by
  have hinv := parse_inv hp
  obtain ⟨he, hh⟩ := writeAll_spec c bs
  refine ⟨hinv.keysEq, hinv.nodup, he, ?_⟩
  rw [hh, List.map_map]
  rfl

/-- Witness for C4 at the descriptor `a-AA==`. -/
theorem expected_hashes_coindexed_witness :
    NewCheckerForHashes "a-AA==" tblA = Except.ok cA ∧
    (cA.expected.map Prod.fst = cA.hashes.map Prod.fst ∧
     (cA.hashes.map Prod.fst).Nodup ∧
     (writeAll cA [[7]]).expected = cA.expected ∧
     (writeAll cA [[7]]).hashes.map Prod.fst = cA.hashes.map Prod.fst) :=
  ⟨rfl, expected_hashes_coindexed "a-AA==" tblA cA rfl [[7]]⟩

/-- C5: writing to a successfully constructed verifier never fails: it
returns the full length of the slice and no error, however many accumulators
the fan-out sink forwards to and whatever was written before. -/
theorem write_never_fails (sri : String) (tbl : String → Option HashAlg)
    (c : Checker) (hp : NewCheckerForHashes sri tbl = Except.ok c)
    (bs : List (List Nat)) (b : List Nat) :
    ((writeAll c bs).write b).2.1 = b.length ∧
    ((writeAll c bs).write b).2.2 = none := by
  constructor <;> simp [Checker.write, multiWrite_eq]

/-- Witness for C5 at the descriptor `a-AA==`. -/
theorem write_never_fails_witness :
    NewCheckerForHashes "a-AA==" tblA = Except.ok cA ∧
    ((writeAll cA [[1]]).write [2, 3]).2.1 = 2 ∧
    ((writeAll cA [[1]]).write [2, 3]).2.2 = none := by
  refine ⟨rfl, ?_⟩
  exact write_never_fails "a-AA==" tblA cA rfl [[1]] [2, 3]

/-- C6: the hex lookup is element-wise the base64-decode-then-hex-encode of
the base64 lookup (every stored value does decode), and a name never
referenced by the descriptor yields the empty sequence from both lookups. -/
theorem expectedHex_is_hex_reencoding (sri : String)
    (tbl : String → Option HashAlg) (c : Checker)
    (hp : NewCheckerForHashes sri tbl = Except.ok c) (name : String) :
    List.Forall₂ (fun e hx => ∃ d, decodeString e = some d ∧
        hx = hexEncodeToString d) (c.Expected name) (c.ExpectedHex name) ∧
    ((∀ field ∈ fields sri, ∀ v, splitToken field ≠ some (name, v)) →
      c.Expected name = [] ∧ c.ExpectedHex name = []) := by
  have hinv := parse_inv hp
  constructor
  · have hrepr : c.ExpectedHex name = (c.Expected name).map
        (fun e => hexEncodeToString ((decodeString e).getD [])) := rfl
    rw [hrepr, List.forall₂_map_right_iff, List.forall₂_same]
    intro e he
    cases hl : lookupKey c.expected name with
    | none => simp [Checker.Expected, hl] at he
    | some vs =>
        have hevs : e ∈ vs := by simpa [Checker.Expected, hl] using he
        obtain ⟨st, _, d, hd, _⟩ :=
          hinv.valsOk (name, vs) (lookupKey_mem hl) e hevs
        exact ⟨d, hd, by simp [hd]⟩
  · intro hnr
    have hnone : lookupKey c.expected name = none := by
      by_contra hne
      obtain ⟨ws, hpf, _⟩ := parse_ok_elim hp
      rcases processFields_referenced hpf name hne with h0 | ⟨field, hf, v, hv⟩
      · simp [lookupKey] at h0
      · exact hnr field hf v hv
    exact ⟨by simp [Checker.Expected, hnone],
      by simp [Checker.ExpectedHex, Checker.Expected, toHex, hnone]⟩

/-- Witness for C6 at the descriptor `a-AA==` and the name `a`. -/
theorem expectedHex_is_hex_reencoding_witness :
    NewCheckerForHashes "a-AA==" tblA = Except.ok cA ∧
    (List.Forall₂ (fun e hx => ∃ d, decodeString e = some d ∧
        hx = hexEncodeToString d) (cA.Expected "a") (cA.ExpectedHex "a") ∧
     ((∀ field ∈ fields "a-AA==", ∀ v, splitToken field ≠ some ("a", v)) →
       cA.Expected "a" = [] ∧ cA.ExpectedHex "a" = [])) :=
  ⟨rfl, expectedHex_is_hex_reencoding "a-AA==" tblA cA rfl "a"⟩

/-- C7: a descriptor that is empty or all whitespace registers no
accumulator and is rejected with the empty-descriptor error; a verifier is
returned only when at least one accumulator was registered. -/
theorem empty_descriptor_rejected (sri : String)
    (tbl : String → Option HashAlg) :
    ((sri = "" ∨ ∀ ch ∈ sri.data, isSpace ch = true) →
      NewCheckerForHashes sri tbl =
        Except.error (SRIError.emptyDescriptor sri)) ∧
    (∀ c, NewCheckerForHashes sri tbl = Except.ok c → c.hashes ≠ []) := by
  constructor
  · intro hsp
    have hnil : fields sri = [] := by
      rcases hsp with h0 | h0
      · rw [h0]; rfl
      · exact fieldsAux_all_space sri.data h0
    unfold NewCheckerForHashes
    rw [hnil]
    rfl
  · intro c hok hnil
    obtain ⟨ws, hpf, hws⟩ := parse_ok_elim hok
    have hlen := processFields_length hpf
    simp [hnil] at hlen
    exact hws (List.length_eq_zero.mp hlen.symm)

/-- Witness for C7 at a whitespace-only descriptor. -/
theorem empty_descriptor_rejected_witness :
    NewCheckerForHashes " \t\n" tblA =
      Except.error (SRIError.emptyDescriptor " \t\n") :=
  (empty_descriptor_rejected " \t\n" tblA).1 (Or.inr (by decide))

/-- C8: after a successful parse, the expected values of a name are exactly
the values of that name's tokens in descriptor order (the empty sequence for
a name never referenced). -/
theorem expected_values_in_descriptor_order (sri : String)
    (tbl : String → Option HashAlg) (c : Checker)
    (hp : NewCheckerForHashes sri tbl = Except.ok c) (name : String) :
    c.Expected name = (fields sri).filterMap (fun field =>
      match splitToken field with
      | some (nm, v) => if nm = name then some v else none
      | none => none) := by
  obtain ⟨ws, hpf, _⟩ := parse_ok_elim hp
  have h := processFields_expectedFor hpf
    ⟨rfl, List.nodup_nil, by simp, by simp⟩ name
  simpa [Checker.Expected, lookupKey] using h

/-- Witness for C8 at a descriptor referencing `a` twice. -/
theorem expected_values_in_descriptor_order_witness :
    NewCheckerForHashes "a-AA== a-AQ==" tblA = Except.ok cB ∧
    cB.Expected "a" = (fields "a-AA== a-AQ==").filterMap (fun field =>
      match splitToken field with
      | some (nm, v) => if nm = "a" then some v else none
      | none => none) :=
  ⟨rfl, expected_values_in_descriptor_order "a-AA== a-AQ==" tblA cB rfl "a"⟩

/-- C9: a token starting with `-`, at any position of the descriptor (the
tokens before it having parsed successfully), is split at position zero, not
rejected as malformed: the empty name is looked up and — for any table
without an empty-string key, including both built-in presets — the parse
fails with the unknown-algorithm error for the empty name. -/
theorem leading_dash_token_unknown_algorithm (sri field : String)
    (pre rest : List String) (cs : List Char) (tbl : String → Option HashAlg)
    (c1 : Checker) (ws1 : List HashState)
    (hf : fields sri = pre ++ field :: rest)
    (hpre : processFields tbl ⟨[], []⟩ [] pre = Except.ok (c1, ws1))
    (hc : field.data = '-' :: cs) (htbl : tbl "" = none) :
    splitToken field = some ("", ⟨cs⟩) ∧
    NewCheckerForHashes sri tbl =
      Except.error (SRIError.unknownAlgorithm "") ∧
    (∀ f1 f2 f3, defaultHashes f1 f2 f3 "" = none) ∧
    (∀ f0 f1 f2 f3, sha1Hashes f0 f1 f2 f3 "" = none) := by
  have hsplit : splitToken field = some ("", ⟨cs⟩) := by
    simp [splitToken, hc]
  have hinv : ParseInv tbl c1 :=
    processFields_inv hpre ⟨rfl, List.nodup_nil, by simp, by simp⟩
  have hlook : lookupKey c1.hashes "" = none := by
    cases hl : lookupKey c1.hashes "" with
    | none => rfl
    | some st =>
        have halg := (hinv.algOk ("", st) (lookupKey_mem hl)).1
        rw [htbl] at halg
        exact Option.noConfusion halg
  refine ⟨hsplit, ?_, fun f1 f2 f3 => rfl, fun f0 f1 f2 f3 => rfl⟩
  refine parse_error_at_token hf hpre ?_
  simp [processFields, hsplit, addHash, hlook, htbl]

/-- Witness for C9: a leading-dash token in second position, after a valid
token. -/
theorem leading_dash_token_unknown_algorithm_witness :
    splitToken "-BB==" = some ("", "BB==") ∧
    NewCheckerForHashes "a-AA== -BB==" tblA =
      Except.error (SRIError.unknownAlgorithm "") ∧
    (∀ f1 f2 f3, defaultHashes f1 f2 f3 "" = none) ∧
    (∀ f0 f1 f2 f3, sha1Hashes f0 f1 f2 f3 "" = none) :=
  leading_dash_token_unknown_algorithm "a-AA== -BB==" "-BB==" ["a-AA=="] []
    "BB==".data tblA cA [⟨⟨1, sumDigest⟩, []⟩] rfl rfl rfl rfl

/-- C10 counterexample: with a table whose algorithm has output size zero,
the descriptor `h-` (token ending in the separator, name in the table)
parses successfully instead of failing with the invalid-length error. -/
theorem trailing_dash_zero_size_parses :
    isOk (NewCheckerForHashes "h-" tblZero) = true := rfl

/-- C10 amended: a token ending in its `-` separator, at any position of the
descriptor (the tokens before it having parsed successfully), whose name is
in the table and whose algorithm has nonzero output size fails with the
invalid-length error reporting actual length 0 (not invalid-encoding),
because base64-decoding the empty string succeeds with zero bytes; for a
repeated name the accumulator's algorithm is the one the table gave, so the
reported size is the same. -/
theorem trailing_dash_empty_value_invalid_length (sri field name : String)
    (pre rest : List String) (tbl : String → Option HashAlg) (alg : HashAlg)
    (c1 : Checker) (ws1 : List HashState)
    (hf : fields sri = pre ++ field :: rest)
    (hpre : processFields tbl ⟨[], []⟩ [] pre = Except.ok (c1, ws1))
    (hsplit : splitToken field = some (name, ""))
    (halg : tbl name = some alg) (hsz : alg.size ≠ 0) :
    decodeString "" = some [] ∧
    NewCheckerForHashes sri tbl =
      Except.error (SRIError.invalidLength "" name alg.size 0) := by
  have hinv : ParseInv tbl c1 :=
    processFields_inv hpre ⟨rfl, List.nodup_nil, by simp, by simp⟩
  have hlen : ¬((0 : Nat) = alg.size) := fun h => hsz h.symm
  refine ⟨rfl, ?_⟩
  refine parse_error_at_token hf hpre ?_
  cases hl : lookupKey c1.hashes name with
  | none =>
      simp [processFields, hsplit, addHash, hl, halg, validateHash,
        HashState.size, hlen, show decodeString "" = some [] from rfl]
  | some st =>
      have halg2 := (hinv.algOk (name, st) (lookupKey_mem hl)).1
      rw [halg] at halg2
      obtain rfl : alg = st.alg := by injection halg2
      simp [processFields, hsplit, addHash, hl, validateHash,
        HashState.size, hlen, show decodeString "" = some [] from rfl]

/-- Witness for the amended C10: a trailing-dash second occurrence of an
already-registered algorithm, in second position. -/
theorem trailing_dash_empty_value_invalid_length_witness :
    decodeString "" = some [] ∧
    NewCheckerForHashes "a-AA== a-" tblA =
      Except.error (SRIError.invalidLength "" "a" 1 0) :=
  trailing_dash_empty_value_invalid_length "a-AA== a-" "a-" "a" ["a-AA=="]
    [] tblA ⟨1, sumDigest⟩ cA [⟨⟨1, sumDigest⟩, []⟩] rfl rfl rfl rfl
    (by decide)

end SRI
